import Mathlib

/-!
Shallow embedding of `src/util/qtGradient.cpp` (class `qtGradient` and its
private data class `qtGradientData`).

Modelling conventions:
* `qreal` (a C++ `double`) is modelled as `ℚ`, exact real arithmetic.  All
  positions exercised by the verified properties are small dyadic rationals,
  on which IEEE double arithmetic is exact.
* `QMap<qreal, Stop>` is modelled as an association list sorted strictly
  ascending by key; `QMap::insert` replaces the value at an existing key.
* Out-of-range iterator accesses (dereferencing or decrementing past the
  container's bounds), which are undefined behaviour in the C++ source, are
  modelled by returning `none`.
* `qtColorUtil` and `qtIndexRange` live in files of this repository that are
  not part of `src/`; they are modelled from the spec where marked.
-/

namespace QtGradient

/-- Model of `qreal` (IEEE double in the source) as exact rational arithmetic. -/
abbrev qreal := ℚ

/-- Model of `QColor`: an rgba quadruple of components in `[0,1]`.
The spec treats the host color type as an external collaborator. -/
structure QColor where
  r : qreal
  g : qreal
  b : qreal
  a : qreal
deriving DecidableEq

/-- `Qt::transparent`. -/
def transparentColor : QColor := ⟨0, 0, 0, 0⟩

/-- `Qt::black`. -/
def blackColor : QColor := ⟨0, 0, 0, 1⟩

/-- `Qt::white`. -/
def whiteColor : QColor := ⟨1, 1, 1, 1⟩

/-- `Qt::red`. -/
def redColor : QColor := ⟨1, 0, 0, 1⟩

/-- `Qt::green`. -/
def greenColor : QColor := ⟨0, 1, 0, 1⟩

/-- `Qt::blue`. -/
def blueColor : QColor := ⟨0, 0, 1, 1⟩

/-- The colorspace part of `qtGradient::InterpolationMode`
(the bits under `InterpolateColorspaceMask`). -/
inductive Colorspace where
  | Rgb
  | Cmyk
  | Hsv
  | Hsl
deriving DecidableEq

/-- The function part of `qtGradient::InterpolationMode`
(the bits under `InterpolateFunctionMask`); `Linear` is the default. -/
inductive InterpFunction where
  | Discrete
  | Linear
  | Cubic
deriving DecidableEq

/-- `qtGradient::InterpolationMode`: in the source a flag word holding two
independent masked fields; modelled as the pair of those fields. -/
structure InterpolationMode where
  function : InterpFunction
  colorspace : Colorspace
deriving DecidableEq

/-- `QGradient::Spread`. -/
inductive Spread where
  | Pad
  | Repeat
  | Reflect
deriving DecidableEq

/-- `qtGradient::NormalizeMode`. -/
inductive NormalizeMode where
  | NormalizeStops
  | TruncateStops
deriving DecidableEq

/-- `qtGradient::Stop`: position, color and weight. -/
structure Stop where
  Position : qreal
  Color : QColor
  Weight : qreal
deriving DecidableEq

/-- Model of `QMap<qreal, qtGradient::Stop>`: an association list kept
sorted strictly ascending by key. -/
abbrev StopMap := List (qreal × Stop)

/-- The ascending key list of a stop map. -/
def keys (m : StopMap) : List qreal := m.map Prod.fst

/-- `QMap::insert`: insert at the sorted place, replacing the value when the
key already exists. -/
def mapInsert (k : qreal) (v : Stop) : StopMap → StopMap
  | [] => [(k, v)]
  | e :: rest =>
      if k < e.1 then (k, v) :: e :: rest
      else if k = e.1 then (k, v) :: rest
      else e :: mapInsert k v rest

/-- The map built by inserting each stop at its position, in list order
(`foreach (stop, stops) stopsMap.insert(stop.Position, stop)`). -/
def mapOfList (stops : List Stop) : StopMap :=
  stops.foldl (fun m s => mapInsert s.Position s m) []

/-- `QMap::constBegin().key()` — the smallest key, when the map is nonempty. -/
def minKey (m : StopMap) : Option qreal := m.head?.map Prod.fst

/-- `(--QMap::constEnd()).key()` — the largest key, when the map is nonempty. -/
def maxKey (m : StopMap) : Option qreal := m.getLast?.map Prod.fst

/-- Truncation toward zero, the rounding used by C `fmod`. -/
def truncQ (q : qreal) : ℤ := if 0 ≤ q then ⌊q⌋ else ⌈q⌉

/-- C `fmod`: `x - trunc(x / y) * y` (the result has the sign of `x`). -/
def fmodQ (x y : qreal) : qreal := x - (truncQ (x / y) : qreal) * y

/-- `qBound(lo, v, hi) = qMax(lo, qMin(hi, v))`. -/
def qBound (lo v hi : qreal) : qreal := max lo (min hi v)

/-- `qFuzzyCompare(p1, p2)` for doubles:
`qAbs(p1 - p2) * 1000000000000. <= qMin(qAbs(p1), qAbs(p2))`. -/
def qFuzzyCompare (p1 p2 : qreal) : Bool :=
  |p1 - p2| * 1000000000000 ≤ min |p1| |p2|

/-- The spread normalization switch at the top of `qtGradient::at`. -/
def applySpread (sp : Spread) (pos : qreal) : qreal :=
  match sp with
  | .Repeat =>
      let p := fmodQ pos 1
      if p < 0 then 1 + p else p
  | .Reflect =>
      let p := |fmodQ pos 2|
      if 1 < p then 2 - p else p
  | .Pad => qBound 0 pos 1

/-- Modelled from the spec: scalar `qtColorUtil::blend(a, b, t)`
(`qtColorUtil.cpp` is not part of `src/`): linear interpolation of two
reals by `t`. -/
def scalarBlend (a b t : qreal) : qreal := a + (b - a) * t

/-- Modelled from the spec: four-point `qtColorUtil::blend(a, b, c, d, t)`
(`qtColorUtil.cpp` is not part of `src/`): a cubic Catmull-Rom-style
interpolation through `b` and `c` with tangents from `a` and `d`. -/
def scalarBlend4 (a b c d t : qreal) : qreal :=
  b + (c - a) * (1/2) * t + (2*a - 5*b + 4*c - d) * (1/2) * t^2
    + (3*b - a - 3*c + d) * (1/2) * t^3

/-- Modelled from the spec: `qtColorUtil::blend(a, b, t, spec)`
(`qtColorUtil.cpp` is not part of `src/`): convert to the blend
colorspace's component representation, interpolate each component
linearly by `t`, convert back.  The spec leaves colorspace conversion to
an external collaborator, so the conversion capability is modelled as the
identity on the component quadruple. -/
def colorBlend (a b : QColor) (t : qreal) (_spec : Colorspace) : QColor :=
  ⟨scalarBlend a.r b.r t, scalarBlend a.g b.g t,
   scalarBlend a.b b.b t, scalarBlend a.a b.a t⟩

/-- Modelled from the spec: four-point
`qtColorUtil::blend(a, b, c, d, t, spec)` (`qtColorUtil.cpp` is not part
of `src/`): the componentwise cubic interpolation, conversion modelled as
the identity as in `colorBlend`. -/
def colorBlend4 (a b c d : QColor) (t : qreal) (_spec : Colorspace) : QColor :=
  ⟨scalarBlend4 a.r b.r c.r d.r t, scalarBlend4 a.g b.g c.g d.g t,
   scalarBlend4 a.b b.b c.b d.b t, scalarBlend4 a.a b.a c.a d.a t⟩

/-- `qtGradientData::blendSpace()`: the colorspace selected by the masked
colorspace bits of the interpolation mode. -/
def blendSpace (im : InterpolationMode) : Colorspace := im.colorspace

/-- `qtGradientData::linearBlend`: re-parameterize `t` around the weight
pivot `w`, then blend. -/
def linearBlend (im : InterpolationMode) (a b : QColor) (t w : qreal) : QColor :=
  let t1 := if w < t then scalarBlend (1/2) 1 ((t - w) / (1 - w))
            else scalarBlend 0 (1/2) (t / w)
  colorBlend a b t1 (blendSpace im)

/-- `qtGradientData::cubicBlend`: smooth 4-stop blend evaluated between
stops `b` and `c`. -/
def cubicBlend (im : InterpolationMode) (a b c d : Stop) (t : qreal) : QColor :=
  let cb := b.Color
  let cc := c.Color
  let ca := colorBlend a.Color cb (1/2) (blendSpace im)
  let cd := colorBlend d.Color cc (1/2) (blendSpace im)
  let cm := colorBlend cb cc (1/2) (blendSpace im)
  let w := b.Weight
  let pb := b.Position
  let pc := c.Position
  let pa := scalarBlend a.Position pb a.Weight
  let pd := scalarBlend d.Position pc c.Weight
  let pm := scalarBlend pb pc w
  if w < t then
    let t1 := (t - w) / (1 - w)
    let t2 := scalarBlend4 pb pm pc pd t1
    let t3 := qBound 0 ((t2 - pm) / (pc - pm)) 1
    colorBlend4 cb cm cc cd t3 (blendSpace im)
  else
    let t1 := t / w
    let t2 := scalarBlend4 pa pb pm pc t1
    let t3 := qBound 0 ((t2 - pb) / (pm - pb)) 1
    colorBlend4 ca cb cm cc t3 (blendSpace im)

/-- `qtGradientData`: the shared data of a gradient — the stop map, the
interpolation mode and the spread. -/
structure GradientData where
  stops : StopMap
  interpolateMode : InterpolationMode
  spread : Spread
deriving DecidableEq

/-- The part of `qtGradient::at` that follows the spread normalization:
find the next stop (`lowerBound`), check for fuzzy matches against it and
its predecessor, then dispatch on the interpolation function.  `none`
models the out-of-range iterator accesses the C++ would make when the
lower bound is the end of the map or has no predecessor. -/
def atSpread (d : GradientData) (pos : qreal) : Option QColor :=
  let before := d.stops.takeWhile (fun e => decide (e.1 < pos))
  let after := d.stops.dropWhile (fun e => decide (e.1 < pos))
  match after with
  | [] => none
  | su :: rest =>
    if qFuzzyCompare pos su.1 then some su.2.Color
    else
      match before.getLast? with
      | none => none
      | some sl =>
        let rpos := (pos - sl.1) / (su.1 - sl.1)
        if qFuzzyCompare pos sl.1 then some sl.2.Color
        else
          match d.interpolateMode.function with
          | .Discrete =>
              some (if rpos < sl.2.Weight then sl.2.Color else su.2.Color)
          | .Cubic =>
              let sll := (before.dropLast.getLast?).getD sl
              let suu := (rest.head?).getD su
              some (cubicBlend d.interpolateMode sll.2 sl.2 su.2 suu.2 rpos)
          | .Linear =>
              some (linearBlend d.interpolateMode sl.2.Color su.2.Color rpos
                      sl.2.Weight)

/-- `qtGradient::at`: transparent on an empty stop set, the single stop's
color when there is only one, otherwise spread-normalize the position and
blend between the bracketing stops. -/
def atPos (d : GradientData) (pos : qreal) : Option QColor :=
  if d.stops.isEmpty then some transparentColor
  else if d.stops.length < 2 then d.stops.head?.map (fun e => e.2.Color)
  else atSpread d (applySpread d.spread pos)

/-- `qtGradient::insertStop`: refuse (returning `false` and leaving the
map unchanged) when `!(0.0 < Position || Position < 1.0)`, otherwise
insert or overwrite at the stop's position. -/
def insertStop (d : GradientData) (s : Stop) : Bool × GradientData :=
  if ¬ (0 < s.Position ∨ s.Position < 1) then (false, d)
  else (true, { d with stops := mapInsert s.Position s d.stops })

/-- `qtGradient::removeStop`: remove the stop at exactly that key and
report whether one existed. -/
def removeStop (d : GradientData) (position : qreal) : Bool × GradientData :=
  let m := d.stops.filter (fun e => decide (e.1 ≠ position))
  (decide (m.length < d.stops.length), { d with stops := m })

/-- The `NormalizeStops` branch of `qtGradient::setStops` for two or more
stops: `offset` is the map's first key, `scale` the reciprocal of the key
span; every stop's position is remapped to `(Position - offset) * scale`
and the map rebuilt from the (remapped) input list. -/
def normalizeStops (stops : List Stop) : StopMap :=
  let stopsMap := mapOfList stops
  let offset := (minKey stopsMap).getD 0
  let scale := 1 / ((maxKey stopsMap).getD 0 - offset)
  stops.foldl
    (fun m s =>
      let p := (s.Position - offset) * scale
      mapInsert p { s with Position := p } m) []

/-- `qtGradient::setStops`.  The empty and one-stop cases are handled
first; with two or more stops the map is rebuilt according to the
normalization mode.  In the `TruncateStops` branch the source evaluates
`(iter = stopsMap.end()).key()` — the key of the *past-the-end* iterator
(unlike line 215, which correctly uses `--stopsMap.constEnd()`) — both in
the second truncation loop and in the final endpoint check; this
out-of-range access on a nonempty map is undefined behaviour and is
modelled as `none`. -/
def setStops (d : GradientData) (stops : List Stop) (nm : NormalizeMode) :
    Option GradientData :=
  match stops with
  | [] => some { d with stops := [] }
  | [s] => some { d with stops := [(0, s)] }
  | _ =>
    match nm with
    | .NormalizeStops => some { d with stops := normalizeStops stops }
    | .TruncateStops =>
        let m1 := (mapOfList stops).dropWhile (fun e => decide (e.1 < 0))
        if m1.isEmpty then some { d with stops := [] } else none

/-- The `TruncateStops` branch as the spec describes it (§4.1) and as the
source plainly intends (reading the *last* key, `--end()`, where lines
232 and 240 dereference `end()`): drop stops with keys below `0.0` from
the front and above `1.0` from the back, then copy the surviving extreme
stops to keys `0.0` and `1.0` when those keys are not yet covered. -/
def truncateStopsIntended (stops : List Stop) : StopMap :=
  let m1 := (mapOfList stops).dropWhile (fun e => decide (e.1 < 0))
  let m2 := (m1.reverse.dropWhile (fun e => decide (1 < e.1))).reverse
  match m2 with
  | [] => []
  | e :: _ =>
    let m3 := if 0 < e.1 then mapInsert 0 e.2 m2 else m2
    match m3.getLast? with
    | none => m3
    | some l => if l.1 < 1 then mapInsert 1 l.2 m3 else m3

/-- `qtGradient::setStops` with the `TruncateStops` branch replaced by its
intended semantics (`truncateStopsIntended`); used to compare the spec's
described behaviour with the source's. -/
def setStopsIntended (d : GradientData) (stops : List Stop)
    (nm : NormalizeMode) : GradientData :=
  match stops with
  | [] => { d with stops := [] }
  | [s] => { d with stops := [(0, s)] }
  | _ =>
    match nm with
    | .NormalizeStops => { d with stops := normalizeStops stops }
    | .TruncateStops => { d with stops := truncateStopsIntended stops }

/-- Modelled from the spec: `qtIndexRange(size)` (`qtIndexRange.h` is not
part of `src/`) iterates `i = 0 .. size - 1`; empty when `size ≤ 0`. -/
def qtIndexRange (size : ℤ) : List ℤ :=
  (List.range size.toNat).map Int.ofNat

/-- The positions `qtGradient::render` samples:
`i * (1.0 / (size - 1))` for each index `i`. -/
def renderPositions (size : ℤ) : List qreal :=
  (qtIndexRange size).map (fun i : ℤ => (i : qreal) * (1 / ((size : qreal) - 1)))

/-- `qtGradient::render`: sample `at` over `qtIndexRange(size)` with step
`1.0 / (size - 1)`.  The source computes the step unconditionally; at
`size = 1` that is an IEEE division by zero producing infinity, a value
outside the exact-rational model of `qreal`, so the model returns `none`
for that single size. -/
def render (d : GradientData) (size : ℤ) : Option (List (Option QColor)) :=
  if size = 1 then none
  else some ((renderPositions size).map (atPos d))

/-- The default-constructed `qtGradient`: linear RGB interpolation, pad
spread, opaque black at `0.0` and opaque white at `1.0` (inserted through
`insertStop`; the stop weight defaults to `0.5` per the spec). -/
def gradientDefault : GradientData :=
  let d0 : GradientData := ⟨[], ⟨.Linear, .Rgb⟩, .Pad⟩
  let d1 := (insertStop d0 ⟨0, blackColor, 1/2⟩).2
  (insertStop d1 ⟨1, whiteColor, 1/2⟩).2

/-- A gradient value with an empty stop map, used as the starting point
of concrete `setStops` scenarios. -/
def gradientBase : GradientData := ⟨[], ⟨.Linear, .Rgb⟩, .Pad⟩

/-- Strict ascending-key ordering — the invariant `QMap` maintains. -/
def SortedMap (m : StopMap) : Prop :=
  m.Pairwise (fun a b => a.1 < b.1)

/-! ## Basic facts about the fuzzy comparison -/

theorem qFuzzyCompare_self (p : qreal) : qFuzzyCompare p p = true := by
  simp only [qFuzzyCompare, sub_self, abs_zero, zero_mul, min_self,
    decide_eq_true_eq]
  exact abs_nonneg p

/-! ## C1, C2, C3, C6, C7: direct consequences of the definitions -/

/-- C1: the guard of `insertStop` tests `not (0.0 < position OR
position < 1.0)`, a condition no rational satisfies, so `insertStop`
returns `true` and inserts (or overwrites) the stop at its position key
for every stop whatsoever. -/
theorem c1_insertStop_always_inserts :
    (∀ p : qreal, 0 < p ∨ p < 1) ∧
    ∀ (d : GradientData) (s : Stop),
      insertStop d s =
        (true, { d with stops := mapInsert s.Position s d.stops }) := by
  have h : ∀ p : qreal, 0 < p ∨ p < 1 := by
    intro p
    rcases le_or_lt p 0 with hp | hp
    · exact Or.inr (lt_of_le_of_lt hp one_pos)
    · exact Or.inl hp
  refine ⟨h, fun d s => ?_⟩
  unfold insertStop
  rw [if_neg (not_not_intro (h s.Position))]

/-- C2: on the stop list `[{-1,red},{0.5,green},{2,blue}]` in `Truncate`
mode the literal source reads the key of the past-the-end iterator
(undefined behaviour, modelled `none`), so it does not carry out the
claimed truncation; the intended truncation (reading the last key, as the
spec describes and the `Normalize` branch does) produces exactly the
three stops `{0.0: green, 0.5: green, 1.0: green}`. -/
theorem c2_truncate_result :
    setStops gradientBase
        [⟨-1, redColor, 1/2⟩, ⟨1/2, greenColor, 1/2⟩, ⟨2, blueColor, 1/2⟩]
        .TruncateStops = none ∧
    (setStopsIntended gradientBase
        [⟨-1, redColor, 1/2⟩, ⟨1/2, greenColor, 1/2⟩, ⟨2, blueColor, 1/2⟩]
        .TruncateStops).stops =
      [(0, ⟨1/2, greenColor, 1/2⟩), (1/2, ⟨1/2, greenColor, 1/2⟩),
       (1, ⟨1/2, greenColor, 1/2⟩)] :=
  ⟨by with_unfolding_all rfl, by with_unfolding_all rfl⟩

/-- C3 counterexample: `render(0)` (a size below 2) does not fail — it
silently returns an ordinary empty color list. -/
theorem c3_counterexample :
    render gradientDefault 0 = some [] ∧
    render gradientDefault 0 ≠ none := by
  have h : render gradientDefault 0 = some [] := by with_unfolding_all rfl
  exact ⟨h, by rw [h]; exact Option.some_ne_none _⟩

/-- C3 (amended): `render` performs no precondition check on `size`; for
every `size ≤ 0` it silently returns the empty list (the sample loop is
empty and the step `1/(size-1)` is computed without any validation). -/
theorem c3_render_no_validation (d : GradientData) (size : ℤ)
    (h : size ≤ 0) : render d size = some [] := by
  have h1 : size ≠ 1 := by omega
  have h2 : size.toNat = 0 := Int.toNat_of_nonpos h
  simp [render, renderPositions, qtIndexRange, h1, h2]

/-- Witness for `c3_render_no_validation` at `size = 0`. -/
theorem c3_render_no_validation_witness :
    render gradientDefault (-3) = some [] :=
  c3_render_no_validation gradientDefault (-3) (by norm_num)

/-- C7: `at` on an empty stop set returns transparent for every query
position, and on a one-stop map returns that stop's color for every
query position, interpolation mode and spread. -/
theorem c7_degenerate_stop_sets :
    (∀ (im : InterpolationMode) (sp : Spread) (p : qreal),
        atPos ⟨[], im, sp⟩ p = some transparentColor) ∧
    (∀ (k : qreal) (s : Stop) (im : InterpolationMode) (sp : Spread)
        (p : qreal), atPos ⟨[(k, s)], im, sp⟩ p = some s.Color) :=
  ⟨fun _ _ _ => rfl, fun _ _ _ _ _ => rfl⟩

/-- C6: the spread normalization evaluates exactly on half- and
quarter-integer inputs — `Pad` clamps `1.25` to `1`, `Repeat` wraps
`1.25` to `0.25` (and `1.0` to `0.0`), `Reflect` folds `1.25` to `0.75`
(and `1.5` to `0.5`) — and consequently, for every stop map and
interpolation mode, `at(1.25)` under `Repeat` equals `at(0.25)`,
under `Reflect` equals `at(0.75)`, and under `Pad` equals `at(1.0)`. -/
theorem c6_spread_normalization :
    (applySpread .Pad (5/4) = 1 ∧ applySpread .Repeat (5/4) = 1/4 ∧
     applySpread .Reflect (5/4) = 3/4 ∧ applySpread .Repeat 1 = 0 ∧
     applySpread .Reflect (3/2) = 1/2) ∧
    ∀ (stops : StopMap) (im : InterpolationMode),
      atPos ⟨stops, im, .Repeat⟩ (5/4) = atPos ⟨stops, im, .Repeat⟩ (1/4) ∧
      atPos ⟨stops, im, .Reflect⟩ (5/4) = atPos ⟨stops, im, .Reflect⟩ (3/4) ∧
      atPos ⟨stops, im, .Pad⟩ (5/4) = atPos ⟨stops, im, .Pad⟩ 1 := by
  refine ⟨⟨by with_unfolding_all rfl, by with_unfolding_all rfl,
           by with_unfolding_all rfl, by with_unfolding_all rfl,
           by with_unfolding_all rfl⟩, ?_⟩
  intro stops im
  have hrep : applySpread .Repeat (5/4 : qreal) = applySpread .Repeat (1/4) := by
    with_unfolding_all rfl
  have href : applySpread .Reflect (5/4 : qreal) = applySpread .Reflect (3/4) := by
    with_unfolding_all rfl
  have hpad : applySpread .Pad (5/4 : qreal) = applySpread .Pad 1 := by
    with_unfolding_all rfl
  refine ⟨?_, ?_, ?_⟩ <;>
    · simp only [atPos]
      split
      · rfl
      · split
        · rfl
        · first
          | exact congrArg _ hrep
          | exact congrArg _ href
          | exact congrArg _ hpad

/-! ## Ordered-map lemmas: `mapInsert`, fold-built maps, extreme keys -/

theorem mem_mapInsert {k : qreal} {v : Stop} {m : StopMap} {e : qreal × Stop} :
    e ∈ mapInsert k v m → e = (k, v) ∨ e ∈ m := by
  induction m with
  | nil =>
    intro h
    simpa [mapInsert] using h
  | cons e' rest ih =>
    intro h
    by_cases h1 : k < e'.1
    · rw [mapInsert, if_pos h1] at h
      rcases List.mem_cons.mp h with rfl | h'
      · exact Or.inl rfl
      · exact Or.inr h'
    · by_cases h2 : k = e'.1
      · rw [mapInsert, if_neg h1, if_pos h2] at h
        rcases List.mem_cons.mp h with rfl | h'
        · exact Or.inl rfl
        · exact Or.inr (List.mem_cons_of_mem _ h')
      · rw [mapInsert, if_neg h1, if_neg h2] at h
        rcases List.mem_cons.mp h with rfl | h'
        · exact Or.inr (List.mem_cons_self _ _)
        · rcases ih h' with h'' | h''
          · exact Or.inl h''
          · exact Or.inr (List.mem_cons_of_mem _ h'')

theorem keys_mapInsert_iff {k' k : qreal} {v : Stop} {m : StopMap} :
    k' ∈ keys (mapInsert k v m) ↔ k' = k ∨ k' ∈ keys m := by
  induction m with
  | nil => simp [mapInsert, keys]
  | cons e rest ih =>
    obtain ⟨ek, ev⟩ := e
    by_cases h1 : k < ek
    · rw [mapInsert, if_pos h1]
      simp only [keys, List.map_cons, List.mem_cons]
    · by_cases h2 : k = ek
      · subst h2
        rw [mapInsert, if_neg h1, if_pos rfl]
        simp only [keys, List.map_cons, List.mem_cons]
        tauto
      · rw [mapInsert, if_neg h1, if_neg h2]
        simp only [keys, List.map_cons, List.mem_cons] at ih ⊢
        rw [ih]
        tauto

theorem mapInsert_sorted {k : qreal} {v : Stop} {m : StopMap}
    (h : SortedMap m) : SortedMap (mapInsert k v m) := by
  induction m with
  | nil => simp [mapInsert, SortedMap]
  | cons e rest ih =>
    rw [SortedMap, List.pairwise_cons] at h
    obtain ⟨he, hrest⟩ := h
    by_cases h1 : k < e.1
    · rw [SortedMap, mapInsert, if_pos h1, List.pairwise_cons]
      refine ⟨?_, List.Pairwise.cons he hrest⟩
      intro b hb
      rcases List.mem_cons.mp hb with rfl | hb'
      · exact h1
      · exact h1.trans (he b hb')
    · by_cases h2 : k = e.1
      · rw [SortedMap, mapInsert, if_neg h1, if_pos h2, List.pairwise_cons]
        exact ⟨fun b hb => h2 ▸ he b hb, hrest⟩
      · rw [SortedMap, mapInsert, if_neg h1, if_neg h2, List.pairwise_cons]
        refine ⟨?_, ih hrest⟩
        intro b hb
        rcases mem_mapInsert hb with rfl | hb'
        · exact lt_of_le_of_ne (le_of_not_lt h1) (Ne.symm h2)
        · exact he b hb'

theorem foldl_mapInsert_sorted (f : Stop → qreal) (v : Stop → Stop) :
    ∀ (l : List Stop) (acc : StopMap), SortedMap acc →
      SortedMap (l.foldl (fun m s => mapInsert (f s) (v s) m) acc) := by
  intro l
  induction l with
  | nil => exact fun acc h => h
  | cons s rest ih =>
    intro acc h
    exact ih _ (mapInsert_sorted h)

theorem mem_keys_foldl_mapInsert (f : Stop → qreal) (v : Stop → Stop) :
    ∀ (l : List Stop) (acc : StopMap) (k : qreal),
      k ∈ keys (l.foldl (fun m s => mapInsert (f s) (v s) m) acc) ↔
        (∃ s ∈ l, f s = k) ∨ k ∈ keys acc := by
  intro l
  induction l with
  | nil => simp
  | cons s rest ih =>
    intro acc k
    rw [List.foldl_cons, ih, keys_mapInsert_iff]
    constructor
    · rintro (⟨s', hs', rfl⟩ | rfl | h)
      · exact Or.inl ⟨s', List.mem_cons_of_mem _ hs', rfl⟩
      · exact Or.inl ⟨s, List.mem_cons_self _ _, rfl⟩
      · exact Or.inr h
    · rintro (⟨s', hs', rfl⟩ | h)
      · rcases List.mem_cons.mp hs' with rfl | hs''
        · exact Or.inr (Or.inl rfl)
        · exact Or.inl ⟨s', hs'', rfl⟩
      · exact Or.inr (Or.inr h)

theorem mem_foldl_mapInsert (f : Stop → qreal) (v : Stop → Stop) :
    ∀ (l : List Stop) (acc : StopMap) (e : qreal × Stop),
      e ∈ l.foldl (fun m s => mapInsert (f s) (v s) m) acc →
        (∃ s ∈ l, e = (f s, v s)) ∨ e ∈ acc := by
  intro l
  induction l with
  | nil => exact fun acc e h => Or.inr h
  | cons s rest ih =>
    intro acc e h
    rcases ih _ _ h with ⟨s', hs', rfl⟩ | h'
    · exact Or.inl ⟨s', List.mem_cons_of_mem _ hs', rfl⟩
    · rcases mem_mapInsert h' with rfl | h''
      · exact Or.inl ⟨s, List.mem_cons_self _ _, rfl⟩
      · exact Or.inr h''

theorem mem_keys_iff {m : StopMap} {k : qreal} :
    k ∈ keys m ↔ ∃ e ∈ m, e.1 = k := by
  simp [keys]

theorem sorted_head_le {m : StopMap} (hs : SortedMap m)
    {e0 : qreal × Stop} (h : m.head? = some e0) :
    ∀ e ∈ m, e0.1 ≤ e.1 := by
  cases m with
  | nil => cases h
  | cons a t =>
    obtain rfl : a = e0 := by simpa using h
    rw [SortedMap, List.pairwise_cons] at hs
    intro e he
    rcases List.mem_cons.mp he with rfl | he'
    · exact le_refl _
    · exact le_of_lt (hs.1 e he')

theorem sorted_le_getLast {m : StopMap} (hs : SortedMap m)
    {eL : qreal × Stop} (h : m.getLast? = some eL) :
    ∀ e ∈ m, e.1 ≤ eL.1 := by
  induction m with
  | nil => cases h
  | cons a t ih =>
    rw [SortedMap, List.pairwise_cons] at hs
    cases t with
    | nil =>
      obtain rfl : a = eL := by simpa using h
      intro e he
      rcases List.mem_cons.mp he with rfl | he'
      · exact le_refl _
      · cases he'
    | cons b t' =>
      have h' : (b :: t').getLast? = some eL := by
        rw [← h, List.getLast?_cons_cons]
      intro e he
      rcases List.mem_cons.mp he with rfl | he'
      · have hb : b ∈ b :: t' := List.mem_cons_self _ _
        exact le_of_lt (lt_of_lt_of_le (hs.1 b hb) (ih hs.2 h' b hb))
      · exact ih hs.2 h' e he'

theorem minKey_eq_of {m : StopMap} {k : qreal} (hs : SortedMap m)
    (hk : k ∈ keys m) (hmin : ∀ k' ∈ keys m, k ≤ k') :
    minKey m = some k := by
  cases m with
  | nil => simp [keys] at hk
  | cons a t =>
    have h1 : k ≤ a.1 := hmin a.1 (by simp [keys])
    obtain ⟨e, he, rfl⟩ := mem_keys_iff.mp hk
    have h2 : a.1 ≤ e.1 := sorted_head_le hs (by simp) e he
    simp [minKey, le_antisymm h2 h1]

theorem getLast?_mem {m : StopMap} {e : qreal × Stop}
    (h : m.getLast? = some e) : e ∈ m := by
  induction m with
  | nil => cases h
  | cons a t ih =>
    cases t with
    | nil =>
      obtain rfl : a = e := by simpa using h
      exact List.mem_cons_self _ _
    | cons b t' =>
      rw [List.getLast?_cons_cons] at h
      exact List.mem_cons_of_mem _ (ih h)

theorem maxKey_eq_of {m : StopMap} {k : qreal} (hs : SortedMap m)
    (hk : k ∈ keys m) (hmax : ∀ k' ∈ keys m, k' ≤ k) :
    maxKey m = some k := by
  obtain ⟨e, he, rfl⟩ := mem_keys_iff.mp hk
  cases hL : m.getLast? with
  | none =>
    rw [List.getLast?_eq_none_iff] at hL
    subst hL
    cases he
  | some eL =>
    have h1 : e.1 ≤ eL.1 := sorted_le_getLast hs hL e he
    have h2 : eL.1 ≤ e.1 := by
      refine hmax eL.1 (mem_keys_iff.mpr ⟨eL, ?_, rfl⟩)
      exact getLast?_mem hL
    simp [maxKey, hL, le_antisymm h1 h2]

/-! ## Normalization: the `NormalizeStops` branch of `setStops` -/

theorem mapOfList_sorted (stops : List Stop) : SortedMap (mapOfList stops) :=
  foldl_mapInsert_sorted (fun s => s.Position) (fun s => s) stops []
    List.Pairwise.nil

theorem mem_keys_mapOfList (stops : List Stop) (k : qreal) :
    k ∈ keys (mapOfList stops) ↔ ∃ s ∈ stops, s.Position = k := by
  have h := mem_keys_foldl_mapInsert (fun s => s.Position) (fun s => s)
    stops [] k
  simpa only [keys, List.map_nil, List.not_mem_nil, or_false] using h

/-- The two extreme keys of `mapOfList stops` bound every stop position,
are themselves stop positions, and are distinct when two stops have
distinct positions. -/
theorem mapOfList_extremes (stops : List Stop) (s1 s2 : Stop)
    (h1 : s1 ∈ stops) (h2 : s2 ∈ stops) (hp : s1.Position ≠ s2.Position) :
    ∃ o M : qreal,
      minKey (mapOfList stops) = some o ∧ maxKey (mapOfList stops) = some M ∧
      (∃ so ∈ stops, so.Position = o) ∧ (∃ sM ∈ stops, sM.Position = M) ∧
      (∀ s ∈ stops, o ≤ s.Position ∧ s.Position ≤ M) ∧ o < M := by
  have hs0 := mapOfList_sorted stops
  have hkeys := mem_keys_mapOfList stops
  cases hm : mapOfList stops with
  | nil =>
    exfalso
    have : s1.Position ∈ keys (mapOfList stops) :=
      (hkeys _).mpr ⟨s1, h1, rfl⟩
    rw [hm] at this
    simp [keys] at this
  | cons e0 t =>
    cases hL : (mapOfList stops).getLast? with
    | none =>
      rw [List.getLast?_eq_none_iff] at hL
      rw [hm] at hL
      cases hL
    | some eL =>
      have hhead : (mapOfList stops).head? = some e0 := by rw [hm]; rfl
      have ho_le : ∀ k ∈ keys (mapOfList stops), e0.1 ≤ k := by
        intro k hk
        obtain ⟨e, he, rfl⟩ := mem_keys_iff.mp hk
        exact sorted_head_le (hm ▸ hs0) (by rfl) e (hm ▸ he)
      have hM_ge : ∀ k ∈ keys (mapOfList stops), k ≤ eL.1 := by
        intro k hk
        obtain ⟨e, he, rfl⟩ := mem_keys_iff.mp hk
        exact sorted_le_getLast hs0 hL e he
      have hposkey : ∀ s ∈ stops, s.Position ∈ keys (mapOfList stops) :=
        fun s hs => (hkeys _).mpr ⟨s, hs, rfl⟩
      have hbound : ∀ s ∈ stops, e0.1 ≤ s.Position ∧ s.Position ≤ eL.1 :=
        fun s hs => ⟨ho_le _ (hposkey s hs), hM_ge _ (hposkey s hs)⟩
      have ho_mem : e0.1 ∈ keys (mapOfList stops) := by
        rw [hm]; simp [keys]
      have hM_mem : eL.1 ∈ keys (mapOfList stops) :=
        mem_keys_iff.mpr ⟨eL, getLast?_mem hL, rfl⟩
      refine ⟨e0.1, eL.1, by rw [← hm, minKey, hhead]; rfl,
        by rw [← hm, maxKey, hL]; rfl,
        (hkeys _).mp ho_mem, (hkeys _).mp hM_mem, hbound, ?_⟩
      rcases lt_or_le e0.1 eL.1 with h | h
      · exact h
      · exfalso
        apply hp
        have b1 := hbound s1 h1
        have b2 := hbound s2 h2
        have e1 : s1.Position = e0.1 := le_antisymm (b1.2.trans h) b1.1
        have e2 : s2.Position = e0.1 := le_antisymm (b2.2.trans h) b2.1
        rw [e1, e2]

/-- Unfolding of `normalizeStops` once the extreme keys of the input map
are known. -/
theorem normalizeStops_unfold (stops : List Stop) (o M : qreal)
    (hmin : minKey (mapOfList stops) = some o)
    (hmax : maxKey (mapOfList stops) = some M) :
    normalizeStops stops =
      stops.foldl
        (fun m s => mapInsert ((s.Position - o) * (1 / (M - o)))
          { s with Position := (s.Position - o) * (1 / (M - o)) } m) [] := by
  simp only [normalizeStops, hmin, hmax, Option.getD_some]

/-- After `normalizeStops` on a list containing two stops with distinct
positions: the minimum key is exactly `0`, the maximum exactly `1`, the
map is sorted, and every entry's stored `Position` equals its key. -/
theorem normalizeStops_spec (stops : List Stop) (s1 s2 : Stop)
    (h1 : s1 ∈ stops) (h2 : s2 ∈ stops) (hp : s1.Position ≠ s2.Position) :
    minKey (normalizeStops stops) = some 0 ∧
    maxKey (normalizeStops stops) = some 1 ∧
    SortedMap (normalizeStops stops) ∧
    (∀ e ∈ normalizeStops stops, e.2.Position = e.1) := by
  obtain ⟨o, M, hmin, hmax, ⟨so, hso, hsoP⟩, ⟨sM, hsM, hsMP⟩, hbound, hoM⟩ :=
    mapOfList_extremes stops s1 s2 h1 h2 hp
  have hunf := normalizeStops_unfold stops o M hmin hmax
  set sc : qreal := 1 / (M - o) with hsc
  have hscpos : 0 < sc := by
    rw [hsc]
    exact one_div_pos.mpr (sub_pos.mpr hoM)
  set f : Stop → qreal := fun s => (s.Position - o) * sc with hf
  set v : Stop → Stop := fun s => { s with Position := (s.Position - o) * sc }
    with hv
  have hres : normalizeStops stops =
      stops.foldl (fun m s => mapInsert (f s) (v s) m) [] := hunf
  have hsorted : SortedMap (normalizeStops stops) := by
    rw [hres]
    exact foldl_mapInsert_sorted f v stops [] List.Pairwise.nil
  have hkeys : ∀ k : qreal,
      k ∈ keys (normalizeStops stops) ↔ ∃ s ∈ stops, f s = k := by
    intro k
    rw [hres]
    have h := mem_keys_foldl_mapInsert f v stops [] k
    simpa only [keys, List.map_nil, List.not_mem_nil, or_false] using h
  have hMkey : f sM = 1 := by
    rw [hf]
    simp only [hsMP]
    rw [hsc, mul_one_div_cancel (ne_of_gt (sub_pos.mpr hoM))]
  have hokey : f so = 0 := by
    rw [hf]
    simp [hsoP]
  refine ⟨?_, ?_, hsorted, ?_⟩
  · refine minKey_eq_of hsorted ((hkeys 0).mpr ⟨so, hso, hokey⟩) ?_
    intro k' hk'
    obtain ⟨s, hs, rfl⟩ := (hkeys k').mp hk'
    exact mul_nonneg (sub_nonneg.mpr (hbound s hs).1) (le_of_lt hscpos)
  · refine maxKey_eq_of hsorted ((hkeys 1).mpr ⟨sM, hsM, hMkey⟩) ?_
    intro k' hk'
    obtain ⟨s, hs, rfl⟩ := (hkeys k').mp hk'
    calc f s ≤ f sM := by
          rw [hf]
          exact mul_le_mul_of_nonneg_right
            (sub_le_sub_right ((hbound s hs).2.trans_eq hsMP.symm) o)
            (le_of_lt hscpos)
    _ = 1 := hMkey
  · intro e he
    rw [hres] at he
    rcases mem_foldl_mapInsert f v stops [] e he with ⟨s, _, rfl⟩ | h'
    · rfl
    · cases h'

/-- C5 counterexample: a two-stop input whose positions coincide — the
map collapses to one key, `scale = 1/(max - min)` divides by zero, and
the resulting maximum key is not `1.0` (in IEEE arithmetic the scale is
infinite and the rebuilt key is NaN; in the exact model the division by
zero yields `0` — under neither reading is the maximum `1.0`). -/
theorem c5_counterexample :
    (setStops gradientBase [⟨1/2, redColor, 1/2⟩, ⟨1/2, blueColor, 1/2⟩]
        .NormalizeStops).map (fun g => maxKey g.stops) ≠ some (some 1) := by
  have h : (setStops gradientBase
      [⟨1/2, redColor, 1/2⟩, ⟨1/2, blueColor, 1/2⟩]
        .NormalizeStops).map (fun g => maxKey g.stops) = some (some 0) := by
    with_unfolding_all rfl
  rw [h]
  intro hcontra
  simp at hcontra

/-- C5 (amended): for every input list containing at least two stops with
*distinct* positions, `setStops(..., Normalize)` succeeds and the
resulting stop map's minimum key is exactly `0.0` and its maximum key
exactly `1.0` (each position having been remapped to
`(position - offset) * scale`). -/
theorem c5_normalize_endpoints (d : GradientData) (stops : List Stop)
    (s1 s2 : Stop) (h1 : s1 ∈ stops) (h2 : s2 ∈ stops)
    (hp : s1.Position ≠ s2.Position) :
    ∃ d', setStops d stops .NormalizeStops = some d' ∧
      minKey d'.stops = some 0 ∧ maxKey d'.stops = some 1 := by
  obtain ⟨hmin, hmax, -, -⟩ := normalizeStops_spec stops s1 s2 h1 h2 hp
  have hne : s1 ≠ s2 := fun h => hp (h ▸ rfl)
  match stops, h1, h2 with
  | [], h1, _ => cases h1
  | [s], h1, h2 =>
    exfalso
    rcases List.mem_singleton.mp h1 with rfl
    rcases List.mem_singleton.mp h2 with rfl
    exact hne rfl
  | a :: b :: t, _, _ =>
    exact ⟨_, rfl, hmin, hmax⟩

/-- Witness for `c5_normalize_endpoints` on the concrete stop list
`[{1,red},{3,blue}]`. -/
theorem c5_normalize_endpoints_witness :
    ∃ d', setStops gradientBase [⟨1, redColor, 1/2⟩, ⟨3, blueColor, 1/2⟩]
        .NormalizeStops = some d' ∧
      minKey d'.stops = some 0 ∧ maxKey d'.stops = some 1 :=
  c5_normalize_endpoints gradientBase _ ⟨1, redColor, 1/2⟩ ⟨3, blueColor, 1/2⟩
    (List.mem_cons_self _ _)
    (List.mem_cons_of_mem _ (List.mem_cons_self _ _))
    (by norm_num)

/-! ## Idempotence of normalization

Reading the stops back out of a normalized map and normalizing again is
the identity: the rebuilt map's offset is `0` and its scale `1`. -/

theorem mapInsert_append {k : qreal} {v : Stop} {acc : StopMap}
    (h : ∀ e ∈ acc, e.1 < k) : mapInsert k v acc = acc ++ [(k, v)] := by
  induction acc with
  | nil => rfl
  | cons e rest ih =>
    have hek : e.1 < k := h e (List.mem_cons_self _ _)
    rw [mapInsert, if_neg (asymm hek), if_neg (ne_of_gt hek),
      ih (fun e' he' => h e' (List.mem_cons_of_mem _ he')), List.cons_append]

/-- Inserting the stops of a sorted position-keyed map in list order
rebuilds exactly that map (appended to any accumulator whose keys all
precede the map's). -/
theorem foldl_insert_of_sorted :
    ∀ (m : StopMap), SortedMap m → (∀ e ∈ m, e.2.Position = e.1) →
      ∀ (acc : StopMap), (∀ e' ∈ acc, ∀ e ∈ m, e'.1 < e.1) →
        (m.map Prod.snd).foldl (fun mm s => mapInsert s.Position s mm) acc =
          acc ++ m := by
  intro m
  induction m with
  | nil =>
    intro _ _ acc _
    simp
  | cons e t ih =>
    intro hs hpos acc hacc
    rw [SortedMap, List.pairwise_cons] at hs
    have hePos : e.2.Position = e.1 := hpos e (List.mem_cons_self _ _)
    have hstep : mapInsert e.2.Position e.2 acc = acc ++ [e] := by
      rw [hePos]
      have h : mapInsert e.1 e.2 acc = acc ++ [(e.1, e.2)] :=
        mapInsert_append (fun e' he' => hacc e' he' e (List.mem_cons_self _ _))
      simpa using h
    rw [List.map_cons, List.foldl_cons, hstep,
      ih hs.2 (fun e' he' => hpos e' (List.mem_cons_of_mem _ he'))
        (acc ++ [e]) ?_, List.append_assoc]
    · rfl
    · intro e' he' x hx
      rcases List.mem_append.mp he' with h' | h'
      · exact lt_trans (hacc e' h' e (List.mem_cons_self _ _)) (hs.1 x hx)
      · obtain rfl : e' = e := by simpa using h'
        exact hs.1 x hx

theorem mapOfList_readback {m : StopMap} (hs : SortedMap m)
    (hpos : ∀ e ∈ m, e.2.Position = e.1) :
    mapOfList (m.map Prod.snd) = m := by
  have h := foldl_insert_of_sorted m hs hpos [] (by intro e' he'; cases he')
  simpa using h

/-- C8: `setStops(list, Normalize)` followed by reading the stops back
and normalizing them again yields exactly the stop set produced by
normalizing once, for every list containing two stops with distinct
positions. -/
theorem c8_normalize_idempotent (d : GradientData) (stops : List Stop)
    (s1 s2 : Stop) (h1 : s1 ∈ stops) (h2 : s2 ∈ stops)
    (hp : s1.Position ≠ s2.Position) :
    ∃ d1, setStops d stops .NormalizeStops = some d1 ∧
      setStops d1 (d1.stops.map Prod.snd) .NormalizeStops = some d1 := by
  obtain ⟨hmin, hmax, hsorted, hpos⟩ := normalizeStops_spec stops s1 s2 h1 h2 hp
  have hne : s1 ≠ s2 := fun h => hp (h ▸ rfl)
  have hgen : ∃ m, normalizeStops stops = m := ⟨_, rfl⟩
  obtain ⟨m, hgen⟩ := hgen
  rw [hgen] at hmin hmax hsorted hpos
  -- The normalized map has at least two entries (keys 0 and 1 differ).
  have hshape : ∃ a b t, m = a :: b :: t := by
    cases hm2 : m with
    | nil =>
      rw [hm2] at hmin
      cases hmin
    | cons a t =>
      cases t with
      | nil =>
        exfalso
        rw [hm2] at hmin hmax
        have h0 : a.1 = 0 := by simpa [minKey] using hmin
        have h1' : a.1 = 1 := by simpa [maxKey] using hmax
        rw [h0] at h1'
        norm_num at h1'
      | cons b t' => exact ⟨a, b, t', rfl⟩
  -- Re-normalizing the read-back list is the identity.
  have hrebuild : mapOfList (m.map Prod.snd) = m := mapOfList_readback hsorted hpos
  have hrenorm : normalizeStops (m.map Prod.snd) = m := by
    have hu := normalizeStops_unfold (m.map Prod.snd) 0 1
      (by rw [hrebuild]; exact hmin) (by rw [hrebuild]; exact hmax)
    rw [hu]
    have hfun : ∀ (mm : StopMap), ∀ s ∈ m.map Prod.snd,
        mapInsert ((s.Position - 0) * (1 / (1 - 0)))
          { s with Position := (s.Position - 0) * (1 / (1 - 0)) } mm =
        mapInsert s.Position s mm := by
      intro mm s _
      have harith : (s.Position - 0) * (1 / (1 - 0)) = s.Position := by
        norm_num
      rw [harith]
    rw [List.foldl_ext _ _ [] hfun]
    exact hrebuild
  -- Assemble, reducing the two `setStops` matches on the list shapes.
  obtain ⟨a, b, t, hmabt⟩ := hshape
  have hstops1 : ∃ d1, setStops d stops .NormalizeStops = some d1 ∧
      d1.stops = m := by
    match stops, h1, h2, hgen with
    | [], h1, _, _ => cases h1
    | [s], h1, h2, _ =>
      exfalso
      rcases List.mem_singleton.mp h1 with rfl
      rcases List.mem_singleton.mp h2 with rfl
      exact hne rfl
    | x :: y :: t', _, _, hgen => exact ⟨_, rfl, hgen⟩
  obtain ⟨d1, hset1, hd1⟩ := hstops1
  refine ⟨d1, hset1, ?_⟩
  have hlist : d1.stops.map Prod.snd = a.2 :: b.2 :: t.map Prod.snd := by
    rw [hd1, hmabt]
    rfl
  have hstep : setStops d1 (a.2 :: b.2 :: t.map Prod.snd) .NormalizeStops =
      some { d1 with stops := normalizeStops (a.2 :: b.2 :: t.map Prod.snd) } :=
    rfl
  rw [hlist, hstep, ← hlist, hd1, hrenorm, ← hd1]

/-- Witness for `c8_normalize_idempotent` on the concrete stop list
`[{1,red},{3,blue}]`. -/
theorem c8_normalize_idempotent_witness :
    ∃ d1, setStops gradientBase [⟨1, redColor, 1/2⟩, ⟨3, blueColor, 1/2⟩]
        .NormalizeStops = some d1 ∧
      setStops d1 (d1.stops.map Prod.snd) .NormalizeStops = some d1 :=
  c8_normalize_idempotent gradientBase _ ⟨1, redColor, 1/2⟩ ⟨3, blueColor, 1/2⟩
    (List.mem_cons_self _ _)
    (List.mem_cons_of_mem _ (List.mem_cons_self _ _))
    (by norm_num)

/-! ## Exact stop lookup: `at` on a position that is a stop key -/

/-- In a sorted map, the `lowerBound` search (drop the entries with
smaller keys) at an existing key finds exactly that key's entry. -/
theorem dropWhile_exact :
    ∀ {m : StopMap}, SortedMap m → ∀ {k : qreal} {s : Stop}, (k, s) ∈ m →
      ∃ tl, m.dropWhile (fun e => decide (e.1 < k)) = (k, s) :: tl := by
  intro m
  induction m with
  | nil =>
    intro _ k s h
    cases h
  | cons e t ih =>
    intro hs k s hmem
    rw [SortedMap, List.pairwise_cons] at hs
    by_cases hlt : e.1 < k
    · have hmem' : (k, s) ∈ t := by
        rcases List.mem_cons.mp hmem with heq | h'
        · exfalso
          rw [← heq] at hlt
          exact lt_irrefl k hlt
        · exact h'
      obtain ⟨tl, htl⟩ := ih hs.2 hmem'
      refine ⟨tl, ?_⟩
      rw [List.dropWhile_cons, if_pos (by simpa using hlt)]
      exact htl
    · have he : e = (k, s) := by
        rcases List.mem_cons.mp hmem with heq | h'
        · exact heq.symm
        · exact absurd (hs.1 (k, s) h') hlt
      refine ⟨t, ?_⟩
      rw [List.dropWhile_cons, if_neg (by simpa using hlt), he]

/-- C4 counterexample: on the normalized two-stop model
`{0: black, 1: white}` with `Repeat` spread, the query `p = 1` *is* the
position key of the white stop, yet `at(1)` wraps `1` to `0` before the
lookup and returns black. -/
theorem c4_counterexample :
    (1, (⟨1, whiteColor, 1/2⟩ : Stop)) ∈
      (⟨[(0, ⟨0, blackColor, 1/2⟩), (1, ⟨1, whiteColor, 1/2⟩)],
        ⟨.Linear, .Rgb⟩, .Repeat⟩ : GradientData).stops ∧
    atPos ⟨[(0, ⟨0, blackColor, 1/2⟩), (1, ⟨1, whiteColor, 1/2⟩)],
        ⟨.Linear, .Rgb⟩, .Repeat⟩ 1 = some blackColor ∧
    some blackColor ≠ some whiteColor := by
  refine ⟨List.mem_cons_of_mem _ (List.mem_cons_self _ _),
    by with_unfolding_all rfl, ?_⟩
  intro h
  rw [Option.some_inj] at h
  have := congrArg QColor.r h
  norm_num [blackColor, whiteColor] at this

/-- C4 (amended): for every model with a sorted stop map containing at
least one stop, every interpolation mode and spread policy, and every
query position `p` equal to an existing stop's position key *and fixed by
the spread normalization* (the one-stop case needs no such restriction,
as the spread is never applied), `at(p)` returns exactly that stop's
color. -/
theorem c4_exact_stop_match (d : GradientData) (hs : SortedMap d.stops)
    (k : qreal) (s : Stop) (hmem : (k, s) ∈ d.stops)
    (hfix : 2 ≤ d.stops.length → applySpread d.spread k = k) :
    atPos d k = some s.Color := by
  match hstops : d.stops, hmem with
  | [e], hmem =>
    obtain rfl : e = (k, s) := (List.mem_singleton.mp hmem).symm
    rw [atPos, hstops]
    rfl
  | e1 :: e2 :: t, hmem =>
    have hlen : 2 ≤ d.stops.length := by
      rw [hstops]
      simp
    have hsp : applySpread d.spread k = k := hfix hlen
    have hne : ¬ d.stops.isEmpty = true := by
      rw [hstops]
      simp
    have hnlt : ¬ d.stops.length < 2 := by omega
    rw [atPos, if_neg hne, if_neg hnlt, hsp]
    have hs' : SortedMap (e1 :: e2 :: t) := hstops ▸ hs
    obtain ⟨tl, htl⟩ := dropWhile_exact hs' hmem
    rw [atSpread, hstops, htl]
    simp [qFuzzyCompare_self]

/-- Witness for `c4_exact_stop_match`: the default gradient (stops at
`0` and `1`, pad spread) queried at the key `1` yields the white stop's
color. -/
theorem c4_exact_stop_match_witness :
    SortedMap gradientDefault.stops ∧ atPos gradientDefault 1 = some whiteColor := by
  have hstops : gradientDefault.stops =
      [(0, ⟨0, blackColor, 1/2⟩), (1, ⟨1, whiteColor, 1/2⟩)] := by
    with_unfolding_all rfl
  have hs : SortedMap gradientDefault.stops := by
    rw [hstops, SortedMap]
    refine List.Pairwise.cons ?_ (List.Pairwise.cons ?_ List.Pairwise.nil)
    · intro b hb
      rcases List.mem_singleton.mp hb with rfl
      norm_num
    · intro b hb
      cases hb
  refine ⟨hs, c4_exact_stop_match gradientDefault hs 1 ⟨1, whiteColor, 1/2⟩
    ?_ ?_⟩
  · rw [hstops]
    exact List.mem_cons_of_mem _ (List.mem_cons_self _ _)
  · intro _
    with_unfolding_all rfl

/-! ## Render sampling -/

/-- C9: for `size ≥ 2`, `render` returns exactly `size` colors, the
`i`-th sampled at `i / (size - 1)`; in particular `render(5)` samples at
`{0, 1/4, 1/2, 3/4, 1}` and `render(2)` at `{0, 1}`, hitting both
endpoints exactly. -/
theorem c9_render_samples (d : GradientData) (size : ℤ) (h : 2 ≤ size) :
    ∃ l, render d size = some l ∧ l.length = size.toNat ∧
      (∀ i (hi : i < l.length),
        l.get ⟨i, hi⟩ = atPos d ((i : qreal) / ((size : qreal) - 1))) ∧
      renderPositions 5 = [0, 1/4, 1/2, 3/4, 1] ∧
      renderPositions 2 = [0, 1] := by
  refine ⟨(renderPositions size).map (atPos d), ?_, ?_, ?_,
    by with_unfolding_all rfl, by with_unfolding_all rfl⟩
  · rw [render, if_neg (by omega : ¬ size = 1)]
  · rw [List.length_map, renderPositions, List.length_map, qtIndexRange,
      List.length_map, List.length_range]
  · intro i hi
    simp only [renderPositions, qtIndexRange, List.map_map,
      List.get_eq_getElem, List.getElem_map, List.getElem_range,
      Function.comp, Int.ofNat_eq_natCast, Int.cast_natCast]
    rw [mul_one_div]

/-- Witness for `c9_render_samples` at `size = 5` on the default
gradient. -/
theorem c9_render_samples_witness :
    ∃ l, render gradientDefault 5 = some l ∧ l.length = (5 : ℤ).toNat ∧
      (∀ i (hi : i < l.length),
        l.get ⟨i, hi⟩ = atPos gradientDefault ((i : qreal) / ((5 : ℤ) - 1))) ∧
      renderPositions 5 = [0, 1/4, 1/2, 3/4, 1] ∧
      renderPositions 2 = [0, 1] :=
  c9_render_samples gradientDefault 5 (by norm_num)

/-! ## Spread bounds and totality of the stop lookup -/

theorem fmodQ_bounds (p y : qreal) (hy : 0 < y) :
    (0 ≤ p → 0 ≤ fmodQ p y ∧ fmodQ p y < y) ∧
    (p < 0 → -y < fmodQ p y ∧ fmodQ p y ≤ 0) := by
  unfold fmodQ truncQ
  constructor
  · intro hp
    have hdiv : 0 ≤ p / y := div_nonneg hp (le_of_lt hy)
    rw [if_pos hdiv]
    have h1 : (⌊p / y⌋ : qreal) ≤ p / y := Int.floor_le _
    have h2 : (⌊p / y⌋ : qreal) * y ≤ p := (le_div_iff₀ hy).mp h1
    have h3 : p / y < (⌊p / y⌋ : qreal) + 1 := Int.lt_floor_add_one _
    have h4 : p < ((⌊p / y⌋ : qreal) + 1) * y := (div_lt_iff₀ hy).mp h3
    constructor
    · linarith
    · nlinarith
  · intro hp
    have hdiv : ¬ 0 ≤ p / y := not_le.mpr (div_neg_of_neg_of_pos hp hy)
    rw [if_neg hdiv]
    have h1 : p / y ≤ (⌈p / y⌉ : qreal) := Int.le_ceil _
    have h2 : p ≤ (⌈p / y⌉ : qreal) * y := (div_le_iff₀ hy).mp h1
    have h3 : (⌈p / y⌉ : qreal) < p / y + 1 := Int.ceil_lt_add_one _
    have h4 : (⌈p / y⌉ : qreal) - 1 < p / y := by linarith
    have h5 : ((⌈p / y⌉ : qreal) - 1) * y < p := (lt_div_iff₀ hy).mp h4
    constructor
    · nlinarith
    · linarith

/-- The spread normalization always lands in `[0, 1]`. -/
theorem applySpread_mem_unit (sp : Spread) (p : qreal) :
    0 ≤ applySpread sp p ∧ applySpread sp p ≤ 1 := by
  cases sp with
  | Pad =>
    constructor
    · exact le_max_left _ _
    · exact max_le (by norm_num) (min_le_left _ _)
  | Repeat =>
    have hb := fmodQ_bounds p 1 one_pos
    simp only [applySpread]
    rcases le_or_lt 0 p with hp | hp
    · obtain ⟨h1, h2⟩ := hb.1 hp
      rw [if_neg (not_lt.mpr h1)]
      exact ⟨h1, le_of_lt h2⟩
    · obtain ⟨h1, h2⟩ := hb.2 hp
      by_cases hneg : fmodQ p 1 < 0
      · rw [if_pos hneg]
        constructor
        · linarith
        · linarith
      · rw [if_neg hneg]
        constructor
        · linarith [not_lt.mp hneg]
        · linarith
  | Reflect =>
    have hb := fmodQ_bounds p 2 two_pos
    simp only [applySpread]
    have habs : |fmodQ p 2| < 2 := by
      rw [abs_lt]
      rcases le_or_lt 0 p with hp | hp
      · obtain ⟨h1, h2⟩ := hb.1 hp
        constructor
        · linarith
        · exact h2
      · obtain ⟨h1, h2⟩ := hb.2 hp
        constructor
        · exact h1
        · linarith
    have habs0 : 0 ≤ |fmodQ p 2| := abs_nonneg _
    by_cases h1 : 1 < |fmodQ p 2|
    · rw [if_pos h1]
      constructor
      · linarith
      · linarith
    · rw [if_neg h1]
      exact ⟨habs0, not_lt.mp h1⟩

theorem dropWhile_ne_nil_of_mem {l : List (qreal × Stop)}
    {e : qreal × Stop} (he : e ∈ l) {p : qreal × Stop → Bool}
    (hp : p e = false) : l.dropWhile p ≠ [] := by
  induction l with
  | nil => cases he
  | cons a t ih =>
    rw [List.dropWhile_cons]
    by_cases ha : p a = true
    · rw [if_pos ha]
      rcases List.mem_cons.mp he with rfl | he'
      · rw [ha] at hp
        cases hp
      · exact ih he'
    · rw [if_neg ha]
      simp

/-- With a sorted stop map spanning exactly `[0, 1]` and a query already
normalized into `[0, 1]`, the post-spread lookup of `at` always finds its
stops and returns a color: the lower bound exists, and the predecessor is
only taken when it exists. -/
theorem atSpread_total (d : GradientData) (_hs : SortedMap d.stops)
    (hmin : minKey d.stops = some 0) (hmax : maxKey d.stops = some 1)
    (pos : qreal) (hp0 : 0 ≤ pos) (hp1 : pos ≤ 1) :
    ∃ c, atSpread d pos = some c := by
  obtain ⟨e0, hhead, h0⟩ := Option.map_eq_some'.mp hmin
  obtain ⟨eL, hL, hL1⟩ := Option.map_eq_some'.mp hmax
  have heL : eL ∈ d.stops := getLast?_mem hL
  have hafter_ne : d.stops.dropWhile (fun e => decide (e.1 < pos)) ≠ [] := by
    refine dropWhile_ne_nil_of_mem heL ?_
    rw [hL1]
    exact decide_eq_false (not_lt.mpr hp1)
  cases hafter : d.stops.dropWhile (fun e => decide (e.1 < pos)) with
  | nil => exact absurd hafter hafter_ne
  | cons su rest =>
    by_cases hfz : qFuzzyCompare pos su.1 = true
    · refine ⟨su.2.Color, ?_⟩
      simp only [atSpread, hafter, hfz, if_true]
    · -- The query is strictly positive here (at `0` the head would have
      -- fuzzy-matched), so the head is in `before` and a predecessor exists.
      obtain ⟨th, hth⟩ : ∃ th, d.stops = e0 :: th := by
        cases hd : d.stops with
        | nil =>
          rw [hd] at hhead
          cases hhead
        | cons a t' =>
          rw [hd] at hhead
          obtain rfl : a = e0 := by simpa using hhead
          exact ⟨t', rfl⟩
      rcases eq_or_lt_of_le hp0 with hpos0 | hpos0
      · exfalso
        rw [hth, List.dropWhile_cons] at hafter
        rw [if_neg (by rw [h0, ← hpos0]; simp)] at hafter
        obtain rfl : e0 = su := (List.cons.injEq _ _ _ _ ▸ hafter).1
        rw [← hpos0, h0] at hfz
        exact hfz (qFuzzyCompare_self 0)
      · have hbefore_ne :
            d.stops.takeWhile (fun e => decide (e.1 < pos)) ≠ [] := by
          rw [hth, List.takeWhile_cons, if_pos (by rw [h0]; simpa using hpos0)]
          simp
        cases hsl : (d.stops.takeWhile (fun e => decide (e.1 < pos))).getLast? with
        | none =>
          rw [List.getLast?_eq_none_iff] at hsl
          exact absurd hsl hbefore_ne
        | some sl =>
          by_cases hfz2 : qFuzzyCompare pos sl.1 = true
          · refine ⟨sl.2.Color, ?_⟩
            simp only [atSpread, hafter, hfz, hsl, hfz2, if_true,
              Bool.false_eq_true, if_false]
          · cases hfun : d.interpolateMode.function with
            | Discrete =>
              refine ⟨if (pos - sl.1) / (su.1 - sl.1) < sl.2.Weight
                  then sl.2.Color else su.2.Color, ?_⟩
              simp only [atSpread, hafter, hfz, hfz2, hsl, hfun,
                Bool.false_eq_true, if_false]
            | Cubic =>
              refine ⟨cubicBlend d.interpolateMode
                (((d.stops.takeWhile
                    (fun e => decide (e.1 < pos))).dropLast.getLast?.getD sl).2)
                sl.2 su.2 ((rest.head?.getD su).2)
                ((pos - sl.1) / (su.1 - sl.1)), ?_⟩
              simp only [atSpread, hafter, hfz, hfz2, hsl, hfun,
                Bool.false_eq_true, if_false]
            | Linear =>
              refine ⟨linearBlend d.interpolateMode sl.2.Color su.2.Color
                ((pos - sl.1) / (su.1 - sl.1)) sl.2.Weight, ?_⟩
              simp only [atSpread, hafter, hfz, hfz2, hsl, hfun,
                Bool.false_eq_true, if_false]

/-- C10: on a model whose sorted stop map has at least two stops with
minimum key exactly `0` and maximum key exactly `1`, every query
position is spread-normalized into `[0, 1]` and the stop lookup inside
`at` stays in range, so `at` totally returns a color. -/
theorem c10_at_total (d : GradientData) (hs : SortedMap d.stops)
    (h2 : 2 ≤ d.stops.length) (hmin : minKey d.stops = some 0)
    (hmax : maxKey d.stops = some 1) (p : qreal) :
    (0 ≤ applySpread d.spread p ∧ applySpread d.spread p ≤ 1) ∧
    ∃ c, atPos d p = some c := by
  obtain ⟨hu0, hu1⟩ := applySpread_mem_unit d.spread p
  refine ⟨⟨hu0, hu1⟩, ?_⟩
  have hne : ¬ d.stops.isEmpty = true := by
    cases hd : d.stops with
    | nil =>
      rw [hd] at h2
      simp at h2
    | cons a t => simp
  have hnlt : ¬ d.stops.length < 2 := by omega
  rw [atPos, if_neg hne, if_neg hnlt]
  exact atSpread_total d hs hmin hmax _ hu0 hu1

/-- Witness for `c10_at_total`: the default two-stop gradient queried at
`7/3`. -/
theorem c10_at_total_witness :
    (0 ≤ applySpread gradientDefault.spread (7/3) ∧
      applySpread gradientDefault.spread (7/3) ≤ 1) ∧
    ∃ c, atPos gradientDefault (7/3) = some c := by
  have hstops : gradientDefault.stops =
      [(0, ⟨0, blackColor, 1/2⟩), (1, ⟨1, whiteColor, 1/2⟩)] := by
    with_unfolding_all rfl
  have hs : SortedMap gradientDefault.stops := by
    rw [hstops, SortedMap]
    refine List.Pairwise.cons ?_ (List.Pairwise.cons ?_ List.Pairwise.nil)
    · intro b hb
      rcases List.mem_singleton.mp hb with rfl
      norm_num
    · intro b hb
      cases hb
  refine c10_at_total gradientDefault hs ?_ ?_ ?_ (7/3)
  · rw [hstops]
    norm_num
  · rw [hstops]
    rfl
  · rw [hstops]
    rfl

end QtGradient
